import Mathlib

/-!
Verification of the `mistune` Markdown orchestrator (`src/mistune/markdown.py`).

The file embeds the `Markdown` class of `markdown.py` shallowly:

* a token (a Python dict) becomes `Token`, recording the `children` and `text`
  entries the orchestrator inspects, plus the opaque remaining entries (`attrs`);
* the generator `Markdown._iter_render` becomes the pure function `iterRender`,
  which additionally returns the list of text arguments passed to the inline
  engine (the generator is consumed eagerly by `render_state`, so the
  materialized list is its observable behaviour);
* `Markdown.parse` becomes `parse`, with the block engine, inline engine,
  renderer and hooks as explicit function-valued fields of `Markdown`;
  exceptions become `Except`, and `parse` also returns the ordered trace of
  pipeline events so that sequencing properties can be stated;
* in-place mutation of the shared `BlockState` becomes explicit state passing;
  on failure the state component returned is the caller-visible state at the
  moment the exception escapes (Python mutates the caller's object in place).
-/

namespace Mistune

/-- The cross-stage environment mapping (`state.env`), an association list whose
first binding for a key is its current value (a Python dict under lookup). -/
abbrev Env := List (String × String)

/-- A token of the document tree: a Python dict.  `markdown.py` only inspects
the `children` and `text` keys; `kind` is the `type` entry and `attrs` stands
for all remaining entries, which the orchestrator never touches. -/
inductive Token where
  | mk (kind : String) (children : Option (List Token)) (text : Option String)
       (attrs : List (String × String))

/-- The `type` entry of a token. -/
def Token.kind : Token → String
  | .mk k _ _ _ => k

/-- The `children` entry of a token (`none` when the key is absent). -/
def Token.children : Token → Option (List Token)
  | .mk _ c _ _ => c

/-- The `text` entry of a token (`none` when the key is absent). -/
def Token.text : Token → Option String
  | .mk _ _ t _ => t

/-- The remaining entries of a token, opaque to the orchestrator. -/
def Token.attrs : Token → List (String × String)
  | .mk _ _ _ a => a

/-- Python `str.isspace` characters relevant to `str.strip()`. -/
def isPySpace (c : Char) : Bool :=
  c = ' ' || c = '\t' || c = '\n' || c = '\x0d' || c = '\x0b' || c = '\x0c'

/-- Python `str.strip()`: drop leading and trailing whitespace. -/
def strip (s : String) : String :=
  ⟨((s.data.dropWhile isPySpace).reverse.dropWhile isPySpace).reverse⟩

/-- Python `s.replace(chr(13) ++ chr(10), chr(10))`: left-to-right,
non-overlapping replacement of CRLF pairs by LF. -/
def replaceCRLF : List Char → List Char
  | '\x0d' :: '\n' :: rest => '\n' :: replaceCRLF rest
  | c :: rest => c :: replaceCRLF rest
  | [] => []

/-- Python `s.replace(chr(13), chr(10))`: every remaining CR becomes LF. -/
def replaceCR (s : List Char) : List Char :=
  s.map (fun c => if c = '\x0d' then '\n' else c)

/-- The two `replace` calls of `Markdown.parse`, in source order. -/
def crNormalize (s : List Char) : List Char :=
  replaceCR (replaceCRLF s)

/-- Python `s.endswith(chr(10))`. -/
def endsWithNL (s : List Char) : Bool :=
  s.getLast? = some '\n'

/-- The line-separator normalization performed at the top of `Markdown.parse`:
collapse CRLF and CR to LF, then append a newline if the text lacks one. -/
def normalize (s : List Char) : List Char :=
  if endsWithNL (crNormalize s) then crNormalize s else crNormalize s ++ ['\n']

/-- The tree resolver `Markdown._iter_render`, with the inline engine `inl`
(`self.inline`) passed explicitly and exceptions modelled by `Except`.
Besides the resolved tokens it returns, in call order, the list of stripped
text arguments handed to the inline engine, so that the number and order of
inline-engine invocations is observable. -/
def iterRender {ε : Type} (inl : String → Env → Except ε (List Token)) (env : Env) :
    List Token → Except ε (List Token × List String)
  | [] => .ok ([], [])
  | Token.mk k (some cs) t a :: ts =>
    (iterRender inl env cs).bind fun rc =>
      (iterRender inl env ts).map fun rt =>
        (Token.mk k (some rc.1) t a :: rt.1, rc.2 ++ rt.2)
  | Token.mk k none (some s) a :: ts =>
    (inl (strip s) env).bind fun cs =>
      (iterRender inl env ts).map fun rt =>
        (Token.mk k (some cs) none a :: rt.1, strip s :: rt.2)
  | Token.mk k none none a :: ts =>
    (iterRender inl env ts).map fun rt =>
      (Token.mk k none none a :: rt.1, rt.2)

/-- Pre-resolution well-formedness of a token tree: no token carries both a
`children` and a `text` entry (at most one of the two keys is present). -/
def preOkList : List Token → Bool
  | [] => true
  | Token.mk _ (some cs) t _ :: ts => !t.isSome && preOkList cs && preOkList ts
  | Token.mk _ none _ _ :: ts => preOkList ts

/-- No token in the tree carries a `text` entry. -/
def textFreeList : List Token → Bool
  | [] => true
  | Token.mk _ (some cs) t _ :: ts => !t.isSome && textFreeList cs && textFreeList ts
  | Token.mk _ none t _ :: ts => !t.isSome && textFreeList ts

/-- Every token in the tree carries a `children` entry and no `text` entry:
the shape of a tree in which resolution has already replaced every text leaf. -/
def fullyResolvedList : List Token → Bool
  | [] => true
  | Token.mk _ (some cs) t _ :: ts => !t.isSome && fullyResolvedList cs && fullyResolvedList ts
  | Token.mk _ none _ _ :: _ => false

/-- How a single input token relates to the corresponding output token of the
resolver: it has `children` afterwards exactly when it had `children` or `text`
before, and a token with neither key passes through unchanged. -/
def resolvesTo (tin tout : Token) : Prop :=
  tout.children.isSome = (tin.children.isSome || tin.text.isSome) ∧
  (tin.children = none → tin.text = none → tout = tin)

/-- Modelled from the spec: the parse state (`BlockState`, defined in
`core.py`, which is not part of the given source).  Per the spec it is a
"mutable container holding the token tree and a cross-stage environment
mapping", and its `process(source)` operation loads the raw source text into
the state while `block.parse(state)` later "mutates `state.tokens` in place
from whatever raw source was previously loaded into `state` via a
`process(source: string)` operation". -/
structure BlockSt where
  src : List Char
  tokens : List Token
  env : Env

/-- Modelled from the spec: `BlockState.process` (from `core.py`, not in the
given source) loads the raw normalized source text into the state; it does not
touch `tokens` or `env`. -/
def process (st : BlockSt) (s : List Char) : BlockSt :=
  { st with src := s }

/-- Python dict lookup on the association-list environment. -/
def envGet (env : Env) (k : String) : Option String :=
  (env.find? (fun p => p.1 == k)).map (fun p => p.2)

/-- Observable pipeline events of one `Markdown.parse` call, in the order the
orchestrator performs them.  Hook events carry the position of the hook in its
registration list. -/
inductive Event where
  | processed
  | beforeParseHook (i : Nat)
  | blockParsed
  | beforeRenderHook (i : Nat)
  | rendered
  | afterRenderHook (i : Nat)
deriving DecidableEq, Repr

/-- The `Markdown` orchestrator.  External collaborators are function-valued
fields: `inline` is `self.inline.__call__`, `blockParse` is
`self.block.parse`, `stateCls` is the fresh state `self.block.state_cls()`
produces, and `renderer` is `self.renderer` (absent when `None`, in which case
`render_state` returns the token list itself).  Each hook receives the data the
Python hook receives apart from the orchestrator itself; any of them may raise,
modelled by `Except`.  A post-render hook returns the new result and may mutate
the state, hence its pair-valued codomain. -/
structure Markdown (ε : Type) where
  inline : String → Env → Except ε (List Token)
  blockParse : BlockSt → Except ε BlockSt
  stateCls : BlockSt
  renderer : Option (List Token → BlockSt → Except ε (List Token))
  beforeParseHooks : List (BlockSt → Except ε BlockSt)
  beforeRenderHooks : List (BlockSt → Except ε BlockSt)
  afterRenderHooks : List (List Token → BlockSt → Except ε (List Token × BlockSt))

/-- One `for hook in hooks: hook(self, state)` loop.  Returns the events for
the hooks that were invoked (the `i`-th hook is tagged `mkEv i`), the state
after the last successful hook, and the outcome: the first raising hook aborts
the loop and its exception is returned unmodified. -/
def runHooksSt {ε : Type} (mkEv : Nat → Event) :
    List (BlockSt → Except ε BlockSt) → Nat → BlockSt →
    List Event × BlockSt × Except ε Unit
  | [], _, st => ([], st, .ok ())
  | h :: hs, i, st =>
    match h st with
    | .error e => ([mkEv i], st, .error e)
    | .ok st' =>
      let r := runHooksSt mkEv hs (i + 1) st'
      (mkEv i :: r.1, r.2.1, r.2.2)

/-- The `for hook in self.after_render_hooks: result = hook(self, result, state)`
loop: the result value is threaded from each hook to the next; the first
raising hook aborts the loop with its exception unmodified. -/
def runAfterHooks {ε : Type} :
    List (List Token → BlockSt → Except ε (List Token × BlockSt)) → Nat →
    List Token → BlockSt → List Event × BlockSt × Except ε (List Token)
  | [], _, res, st => ([], st, .ok res)
  | h :: hs, i, res, st =>
    match h res st with
    | .error e => ([Event.afterRenderHook i], st, .error e)
    | .ok r =>
      let rr := runAfterHooks hs (i + 1) r.1 r.2
      (Event.afterRenderHook i :: rr.1, rr.2.1, rr.2.2)

/-- The post-render chain exactly as the spec words it: "invoked in
registration order as a left-to-right fold — each hook receives the previous
hook's output as its `result` input and returns the value passed to the next".
Stated over the spec's words, to be compared with `runAfterHooks`, which is
translated from the source loop. -/
def specFoldAfterHooks {ε : Type}
    (hooks : List (List Token → BlockSt → Except ε (List Token × BlockSt)))
    (res : List Token) (st : BlockSt) : Except ε (List Token × BlockSt) :=
  hooks.foldl (fun acc h => acc.bind fun p => h p.1 p.2) (.ok (res, st))

/-- Python `Markdown.render_state`: resolve the token tree with `_iter_render`; hand
the resolved sequence and the state to the renderer when one is set, otherwise
the materialized resolved list itself is the result.  The generator is drained
eagerly, so the state's tokens are the resolved ones afterwards. -/
def renderState {ε : Type} (md : Markdown ε) (st : BlockSt) :
    Except ε (List Token × BlockSt) :=
  match iterRender md.inline st.env st.tokens with
  | .error e => .error e
  | .ok r =>
    let st' := { st with tokens := r.1 }
    match md.renderer with
    | some rd => (rd r.1 st').map (fun res => (res, st'))
    | none => .ok (r.1, st')

/-- The state `Markdown.parse` works on after its first lines: the supplied
state, or a fresh `self.block.state_cls()`, loaded with the normalized source
through `state.process(s)`. -/
def initState {ε : Type} (md : Markdown ε) (s : List Char)
    (state? : Option BlockSt) : BlockSt :=
  process (state?.getD md.stateCls) (normalize s)

/-- Python `Markdown.parse`: normalize the source, load it into the state, run the
pre-parse hooks, run the block engine, run the pre-render hooks, resolve and
render, then thread the result through the post-render hooks.  Returns the
event trace, the caller-visible state at the moment control returns (Python
mutates the caller's state object in place, so it is visible even when an
exception escapes), and the result or the first exception, unmodified. -/
def parse {ε : Type} (md : Markdown ε) (s : List Char) (state? : Option BlockSt) :
    List Event × BlockSt × Except ε (List Token) :=
  match runHooksSt Event.beforeParseHook md.beforeParseHooks 0 (initState md s state?) with
  | (tr1, stA, .error e) => ([Event.processed] ++ tr1, stA, .error e)
  | (tr1, st2, .ok _) =>
    match md.blockParse st2 with
    | .error e => ([Event.processed] ++ tr1 ++ [Event.blockParsed], st2, .error e)
    | .ok st3 =>
      match runHooksSt Event.beforeRenderHook md.beforeRenderHooks 0 st3 with
      | (tr2, stA, .error e) =>
        ([Event.processed] ++ tr1 ++ [Event.blockParsed] ++ tr2, stA, .error e)
      | (tr2, st4, .ok _) =>
        match renderState md st4 with
        | .error e =>
          ([Event.processed] ++ tr1 ++ [Event.blockParsed] ++ tr2 ++ [Event.rendered],
           st4, .error e)
        | .ok rres =>
          match runAfterHooks md.afterRenderHooks 0 rres.1 rres.2 with
          | (tr3, stA, out) =>
            ([Event.processed] ++ tr1 ++ [Event.blockParsed] ++ tr2 ++ [Event.rendered] ++ tr3,
             stA, out)

/-- Python `Markdown.read`: record the file path into `state.env` under `__file__`,
then open and decode the file and delegate to `parse`.  The file system and the
decoder are explicit functions (`fsRead` is the binary read of the opened path,
`dec` decodes bytes under the given encoding); either may fail, and the failure
escapes unmodified.  The first component is the caller-visible state. -/
def read {ε : Type} (md : Markdown ε) (fsRead : String → Except ε (List Nat))
    (dec : String → List Nat → Except ε (List Char)) (filepath : String)
    (encoding : String) (state? : Option BlockSt) :
    BlockSt × Except ε (List Token) :=
  let st := state?.getD md.stateCls
  let st1 := { st with env := ("__file__", filepath) :: st.env }
  match fsRead filepath with
  | .error e => (st1, .error e)
  | .ok bs =>
    match dec encoding bs with
    | .error e => (st1, .error e)
    | .ok s =>
      let r := parse md s (some st1)
      (r.2.1, r.2.2)

/-- Python `Markdown.__call__`: a `None` document is replaced by a single newline,
then `parse` runs with a fresh state and only the result is returned (the
state is dropped). -/
def callFn {ε : Type} (md : Markdown ε) (s : Option (List Char)) :
    Except ε (List Token) :=
  (parse md (s.getD ['\n']) none).2.2

/-! Concrete instances used to evaluate the embedding on closed inputs. -/

/-- An empty fresh parse state, as `BlockState()` produces it. -/
def stEmpty : BlockSt := ⟨[], [], []⟩

/-- A block-level paragraph token whose inline text is not yet tokenized. -/
def tokHi : Token := Token.mk "paragraph" none (some "hi") []

/-- A hook recording into the environment whether `state.tokens` was empty at
the moment the hook ran. -/
def hookSeen : BlockSt → Except Unit BlockSt :=
  fun st =>
    .ok { st with env := ("seen", if st.tokens.isEmpty then "empty" else "filled") :: st.env }

/-- An orchestrator whose block engine produces one paragraph token and whose
single pre-parse hook observes `state.tokens`. -/
def mdHookOrder : Markdown Unit where
  inline := fun _ _ => .ok []
  blockParse := fun st => .ok { st with tokens := [tokHi] }
  stateCls := stEmpty
  renderer := none
  beforeParseHooks := [hookSeen]
  beforeRenderHooks := []
  afterRenderHooks := []

/-- A post-render hook wrapping the result list in a single container token. -/
def wrapHook : List Token → BlockSt → Except Unit (List Token × BlockSt) :=
  fun res st => .ok ([Token.mk "wrapper" (some res) none []], st)

/-- A post-render hook replacing the result with a token counting its
elements; it sees whatever the previous hook returned. -/
def countHook : List Token → BlockSt → Except Unit (List Token × BlockSt) :=
  fun res st => .ok ([Token.mk "count" none none [("n", toString res.length)]], st)

/-- An orchestrator with the two-post-hook chain of the spec's scenario. -/
def mdFold : Markdown Unit where
  inline := fun _ _ => .ok []
  blockParse := fun st => .ok st
  stateCls := stEmpty
  renderer := none
  beforeParseHooks := []
  beforeRenderHooks := []
  afterRenderHooks := [wrapHook, countHook]

/-- A plain orchestrator over string-valued exceptions; every stage succeeds
and nothing is registered. -/
def mdBase : Markdown String where
  inline := fun _ _ => .ok []
  blockParse := fun st => .ok st
  stateCls := stEmpty
  renderer := none
  beforeParseHooks := []
  beforeRenderHooks := []
  afterRenderHooks := []

/-- A state hook that succeeds without touching the state. -/
def okHook : BlockSt → Except String BlockSt := fun st => .ok st

/-- A state hook that raises. -/
def failHook : BlockSt → Except String BlockSt := fun _ => .error "hook boom"

/-- A post-render hook that succeeds and passes the result through. -/
def okAfter : List Token → BlockSt → Except String (List Token × BlockSt) :=
  fun res st => .ok (res, st)

/-- A post-render hook that raises. -/
def failAfter : List Token → BlockSt → Except String (List Token × BlockSt) :=
  fun _ _ => .error "post boom"

/-- A renderer that raises. -/
def failRenderer : List Token → BlockSt → Except String (List Token) :=
  fun _ _ => .error "render boom"

/-- An orchestrator whose second pre-parse hook raises. -/
def mdPreHookFail : Markdown String :=
  { mdBase with beforeParseHooks := [okHook, failHook, okHook] }

/-- An orchestrator whose block engine raises. -/
def mdBlockFail : Markdown String :=
  { mdBase with blockParse := fun _ => .error "block boom" }

/-- An orchestrator whose second pre-render hook raises. -/
def mdPreRenderHookFail : Markdown String :=
  { mdBase with beforeRenderHooks := [okHook, failHook] }

/-- An orchestrator whose inline engine raises. -/
def mdInlineFail : Markdown String :=
  { mdBase with inline := fun _ _ => .error "inline boom" }

/-- An orchestrator whose renderer raises. -/
def mdRenderFail : Markdown String :=
  { mdBase with renderer := some failRenderer }

/-- An orchestrator whose block engine produces a text token that the failing
inline engine will then choke on. -/
def mdInlineFailBlock : Markdown String :=
  { mdBase with inline := fun _ _ => .error "inline boom",
                blockParse := fun st => .ok { st with tokens := [tokHi] } }

/-- An orchestrator whose second post-render hook raises. -/
def mdPostHookFail : Markdown String :=
  { mdBase with afterRenderHooks := [okAfter, failAfter, okAfter] }

/-- A state holding one unresolved paragraph token. -/
def stTok : BlockSt := ⟨[], [tokHi], []⟩

/-- The state obtained from a fresh state after loading the normalized
one-character source. -/
def stX : BlockSt := ⟨['x', '\n'], [], []⟩

/-- The same state after the block engine of `mdInlineFailBlock` ran. -/
def stXTok : BlockSt := ⟨['x', '\n'], [tokHi], []⟩

/-- An already fully resolved two-level token tree. -/
def resolvedTree : List Token :=
  [Token.mk "quote" (some [Token.mk "p" (some []) none []]) none []]

/-- Claim C7: for every token carrying a `text` attribute (and no `children`),
the tree resolver invokes the inline engine exactly once, with the text
stripped of leading and trailing whitespace and the state's environment — even
when the stripped text is empty (see the witness) — removes `text`, sets
`children` to the returned sequence, and mutates no other token attribute
(`kind` and `attrs` are untouched).  The call log has exactly one entry. -/
theorem iterRender_text_single_inline_call {ε : Type}
    (inl : String → Env → Except ε (List Token)) (env : Env)
    (k s : String) (a : List (String × String)) (cs : List Token)
    (h : inl (strip s) env = .ok cs) :
    iterRender inl env [Token.mk k none (some s) a] =
      .ok ([Token.mk k (some cs) none a], [strip s]) := by
  simp [iterRender, h, Except.bind, Except.map]

theorem iterRender_text_single_inline_call_witness :
    strip "  " = "" ∧
    iterRender (fun _ _ => (.ok [] : Except Unit (List Token))) []
        [Token.mk "p" none (some "  ") []] =
      .ok ([Token.mk "p" (some []) none []], [strip "  "]) :=
  ⟨rfl, iterRender_text_single_inline_call (fun _ _ => .ok []) [] "p" "  " [] [] rfl⟩

/-- Claim C6: running the tree resolver over a tree in which every token
already has `children` and none has `text` yields the identical tree and
performs no inline-engine invocation (the call log is empty): resolution is
idempotent on an already-resolved tree. -/
theorem iterRender_idempotent_on_resolved {ε : Type}
    (inl : String → Env → Except ε (List Token)) (env : Env)
    (ts : List Token) (h : fullyResolvedList ts = true) :
    iterRender inl env ts = .ok (ts, []) := by
  induction ts using iterRender.induct inl env with
  | case1 => simp [iterRender]
  | case2 k cs t a ts ih1 ih2 =>
    simp [fullyResolvedList] at h
    obtain ⟨⟨ht, hcs⟩, hts⟩ := h
    simp [iterRender, ih1 hcs, ih2 hts, Except.bind, Except.map]
  | case3 k s a ts ih => simp [fullyResolvedList] at h
  | case4 k a ts ih => simp [fullyResolvedList] at h

/-- Claim C3: the tree resolver's output is deterministic post-order.  First:
tokens are emitted in input order — resolving a concatenation yields the
concatenation of the resolved parts, in order, and the inline-engine call log
concatenates in the same order.  Second: for a token with children, the fully
materialized resolution of all of its descendants (children list and their
inline calls) is complete and placed in the token before the token itself
appears at the head of the output sequence. -/
theorem iterRender_order_postorder {ε : Type} :
    (∀ (inl : String → Env → Except ε (List Token)) (env : Env)
       (ts us : List Token) (a : List Token) (la : List String)
       (b : List Token) (lb : List String),
       iterRender inl env ts = .ok (a, la) → iterRender inl env us = .ok (b, lb) →
       iterRender inl env (ts ++ us) = .ok (a ++ b, la ++ lb)) ∧
    (∀ (inl : String → Env → Except ε (List Token)) (env : Env) (k : String)
       (cs : List Token) (t : Option String) (al : List (String × String))
       (ts rs : List Token) (lc : List String) (b : List Token) (lb : List String),
       iterRender inl env cs = .ok (rs, lc) → iterRender inl env ts = .ok (b, lb) →
       iterRender inl env (Token.mk k (some cs) t al :: ts) =
         .ok (Token.mk k (some rs) t al :: b, lc ++ lb)) := by
  constructor
  · intro inl env ts
    induction ts using iterRender.induct inl env with
    | case1 =>
      intro us a la b lb h1 h2
      simp [iterRender] at h1
      obtain ⟨h1a, h1b⟩ := h1
      subst h1a; subst h1b
      simpa using h2
    | case2 k cs t al ts ih1 ih2 =>
      intro us a la b lb h1 h2
      cases hc : iterRender inl env cs with
      | error e => simp [iterRender, hc, Except.bind] at h1
      | ok rc =>
        cases ht : iterRender inl env ts with
        | error e => simp [iterRender, hc, ht, Except.bind, Except.map] at h1
        | ok rt =>
          simp [iterRender, hc, ht, Except.bind, Except.map] at h1
          obtain ⟨h1a, h1b⟩ := h1
          have hrec := ih2 us rt.1 rt.2 b lb ht h2
          simp [iterRender, hc, hrec, Except.bind, Except.map, ← h1a, ← h1b]
    | case3 k s al ts ih =>
      intro us a la b lb h1 h2
      cases hi : inl (strip s) env with
      | error e => simp [iterRender, hi, Except.bind] at h1
      | ok cs =>
        cases ht : iterRender inl env ts with
        | error e => simp [iterRender, hi, ht, Except.bind, Except.map] at h1
        | ok rt =>
          simp [iterRender, hi, ht, Except.bind, Except.map] at h1
          obtain ⟨h1a, h1b⟩ := h1
          have hrec := ih us rt.1 rt.2 b lb ht h2
          simp [iterRender, hi, hrec, Except.bind, Except.map, ← h1a, ← h1b]
    | case4 k al ts ih =>
      intro us a la b lb h1 h2
      cases ht : iterRender inl env ts with
      | error e => simp [iterRender, ht, Except.map] at h1
      | ok rt =>
        simp [iterRender, ht, Except.map] at h1
        obtain ⟨h1a, h1b⟩ := h1
        have hrec := ih us rt.1 rt.2 b lb ht h2
        simp [iterRender, hrec, Except.map, ← h1a, ← h1b]
  · intro inl env k cs t al ts rs lc b lb h1 h2
    simp [iterRender, h1, h2, Except.bind, Except.map]


/-- Claim C1 (amended): assuming every token of the input tree has at most one
of `children`/`text` (the pre-resolution invariant) and the inline engine
produces text-free token trees, after resolution no token retains a `text`
attribute, and each top-level token has `children` exactly when it had
`children` or `text` before; a token with neither attribute passes through
completely unchanged — so, contrary to the claim as stated, it does not gain a
`children` attribute (see the counterexample). -/
theorem iterRender_resolution_invariant {ε : Type}
    (inl : String → Env → Except ε (List Token)) (env : Env)
    (hinl : ∀ s e cs, inl s e = .ok cs → textFreeList cs = true) :
    ∀ ts out log, iterRender inl env ts = .ok (out, log) → preOkList ts = true →
      textFreeList out = true ∧ List.Forall₂ resolvesTo ts out := by
  intro ts
  induction ts using iterRender.induct inl env with
  | case1 =>
    intro out log h hpre
    simp [iterRender] at h
    obtain ⟨h1, h2⟩ := h
    subst h1
    simp [textFreeList]
  | case2 k cs t a ts ih1 ih2 =>
    intro out log h hpre
    simp [preOkList] at hpre
    obtain ⟨⟨hpt, hpc⟩, hps⟩ := hpre
    cases hc : iterRender inl env cs with
    | error e => simp [iterRender, hc, Except.bind] at h
    | ok rc =>
      cases ht : iterRender inl env ts with
      | error e => simp [iterRender, hc, ht, Except.bind, Except.map] at h
      | ok rt =>
        simp [iterRender, hc, ht, Except.bind, Except.map] at h
        obtain ⟨hout, hlog⟩ := h
        obtain ⟨hf1, hr1⟩ := ih1 rc.1 rc.2 (by simp [hc]) hpc
        obtain ⟨hf2, hr2⟩ := ih2 rt.1 rt.2 (by simp [ht]) hps
        subst hout
        constructor
        · simp [textFreeList, hpt, hf1, hf2]
        · refine List.Forall₂.cons ?_ hr2
          unfold resolvesTo
          refine ⟨by simp [Token.children, Token.text], ?_⟩
          intro hcn
          simp [Token.children] at hcn
  | case3 k s a ts ih =>
    intro out log h hpre
    simp [preOkList] at hpre
    cases hi : inl (strip s) env with
    | error e => simp [iterRender, hi, Except.bind] at h
    | ok cs =>
      cases ht : iterRender inl env ts with
      | error e => simp [iterRender, hi, ht, Except.bind, Except.map] at h
      | ok rt =>
        simp [iterRender, hi, ht, Except.bind, Except.map] at h
        obtain ⟨hout, hlog⟩ := h
        obtain ⟨hf2, hr2⟩ := ih rt.1 rt.2 (by simp [ht]) hpre
        subst hout
        constructor
        · simp [textFreeList, hinl (strip s) env cs hi, hf2]
        · refine List.Forall₂.cons ?_ hr2
          unfold resolvesTo
          refine ⟨by simp [Token.children, Token.text], ?_⟩
          intro hcn htn
          simp [Token.text] at htn
  | case4 k a ts ih =>
    intro out log h hpre
    simp [preOkList] at hpre
    cases ht : iterRender inl env ts with
    | error e => simp [iterRender, ht, Except.map] at h
    | ok rt =>
      simp [iterRender, ht, Except.map] at h
      obtain ⟨hout, hlog⟩ := h
      obtain ⟨hf2, hr2⟩ := ih rt.1 rt.2 (by simp [ht]) hpre
      subst hout
      constructor
      · simp [textFreeList, hf2]
      · refine List.Forall₂.cons ?_ hr2
        unfold resolvesTo
        exact ⟨by simp [Token.children, Token.text], by intro h1 h2; rfl⟩

/-- Claim C1 witness: the resolver run over one unresolved paragraph satisfies
the amended conclusion at a concrete input. -/
theorem iterRender_resolution_invariant_witness :
    textFreeList [Token.mk "p" (some []) none []] = true ∧
    List.Forall₂ resolvesTo [Token.mk "p" none (some "hi") []]
      [Token.mk "p" (some []) none []] :=
  iterRender_resolution_invariant (fun _ _ => (.ok [] : Except Unit (List Token))) []
    (by intro s e cs h; cases h; simp [textFreeList])
    [Token.mk "p" none (some "hi") []] [Token.mk "p" (some []) none []] [strip "hi"]
    (by simp [iterRender, Except.bind, Except.map]) (by simp [preOkList])

/-- Claim C1 counterexample: a pure leaf token (neither `children` nor `text`,
as the code's final `else` branch allows) satisfies the pre-resolution
invariant, yet after resolution it still has no `children` attribute, refuting
"after resolution every token in the tree has `children`". -/
theorem iterRender_pure_leaf_no_children :
    iterRender (fun _ _ => (.ok [] : Except Unit (List Token))) []
        [Token.mk "blank_line" none none []] =
      .ok ([Token.mk "blank_line" none none []], []) ∧
    (Token.mk "blank_line" none none []).children = none ∧
    preOkList [Token.mk "blank_line" none none []] = true := by
  refine ⟨?_, rfl, ?_⟩ <;> simp [iterRender, preOkList, Except.map, Token.children]

theorem replaceCRLF_nil_iff (s : List Char) : replaceCRLF s = [] ↔ s = [] := by
  induction s using replaceCRLF.induct with
  | case1 rest ih => simp [replaceCRLF]
  | case2 c rest h ih => simp [replaceCRLF]
  | case3 => simp [replaceCRLF]

theorem replaceCRLF_getLast (s : List Char) (h : s.getLast? = some '\n') :
    (replaceCRLF s).getLast? = some '\n' := by
  induction s using replaceCRLF.induct with
  | case1 rest ih =>
    cases rest with
    | nil => simp [replaceCRLF]
    | cons r rest' =>
      rw [List.getLast?_cons_cons, List.getLast?_cons_cons] at h
      have hr := ih h
      have hne : replaceCRLF (r :: rest') ≠ [] := by
        simp [replaceCRLF_nil_iff]
      rw [replaceCRLF]
      cases hx : replaceCRLF (r :: rest') with
      | nil => exact absurd hx hne
      | cons y ys => rw [List.getLast?_cons_cons]; rw [hx] at hr; exact hr
  | case2 c rest hpat ih =>
    cases rest with
    | nil =>
      simp at h
      simp [replaceCRLF, h]
    | cons r rest' =>
      rw [List.getLast?_cons_cons] at h
      have hr := ih h
      have hne : replaceCRLF (r :: rest') ≠ [] := by
        simp [replaceCRLF_nil_iff]
      rw [replaceCRLF]
      cases hx : replaceCRLF (r :: rest') with
      | nil => exact absurd hx hne
      | cons y ys => rw [List.getLast?_cons_cons]; rw [hx] at hr; exact hr
      exact hpat
  | case3 => simp at h

theorem replaceCR_getLast (s : List Char) (h : s.getLast? = some '\n') :
    (replaceCR s).getLast? = some '\n' := by
  unfold replaceCR
  rw [List.getLast?_map]
  rw [h]
  rfl

theorem crNormalize_getLast (s : List Char) (h : s.getLast? = some '\n') :
    (crNormalize s).getLast? = some '\n' :=
  replaceCR_getLast _ (replaceCRLF_getLast s h)

theorem mem_replaceCR_ne_cr (c : Char) (s : List Char) (h : c ∈ replaceCR s) :
    c ≠ '\x0d' := by
  unfold replaceCR at h
  obtain ⟨a, -, ha⟩ := List.mem_map.mp h
  by_cases hc : a = '\x0d'
  · simp [hc] at ha
    subst ha
    decide
  · simp [hc] at ha
    subst ha
    exact hc

/-- Claim C4 (amended): for every input, the normalized text contains no
carriage return and ends with at least one newline; a newline is appended only
when the input did not already end with one (an input already ending in a
newline is left untouched by the final step).  "Ends with exactly one trailing
newline" does not hold in general — see the counterexample. -/
theorem normalize_no_cr_trailing_newline :
    (∀ s : List Char, '\x0d' ∉ normalize s) ∧
    (∀ s : List Char, (normalize s).getLast? = some '\n') ∧
    (∀ s : List Char, endsWithNL s = true → normalize s = crNormalize s) := by
  refine ⟨?_, ?_, ?_⟩
  · intro s hmem
    unfold normalize at hmem
    have hcr : '\x0d' ∉ crNormalize s := by
      intro hx
      exact mem_replaceCR_ne_cr _ _ hx rfl
    by_cases h : endsWithNL (crNormalize s)
    · simp [h] at hmem; exact hcr hmem
    · simp [h] at hmem
      exact hcr hmem
  · intro s
    unfold normalize
    by_cases h : endsWithNL (crNormalize s)
    · simp [h]
      exact of_decide_eq_true h
    · simp [h, List.getLast?_concat]
  · intro s h
    have h2 : endsWithNL (crNormalize s) = true := by
      unfold endsWithNL at h ⊢
      exact decide_eq_true (crNormalize_getLast s (of_decide_eq_true h))
    unfold normalize
    simp [h2]


theorem runHooksSt_ok_trace {ε : Type} (mkEv : Nat → Event)
    (hooks : List (BlockSt → Except ε BlockSt)) :
    ∀ (i : Nat) (st : BlockSt) (tr : List Event) (stF : BlockSt),
      runHooksSt mkEv hooks i st = (tr, stF, .ok ()) →
      tr = (List.range hooks.length).map (fun j => mkEv (i + j)) := by
  induction hooks with
  | nil =>
    intro i st tr stF h
    simp [runHooksSt] at h
    simp [h.1.symm]
  | cons hk hs ih =>
    intro i st tr stF h
    cases hh : hk st with
    | error e => simp [runHooksSt, hh] at h
    | ok st' =>
      simp [runHooksSt, hh] at h
      obtain ⟨htr, hrest⟩ := h
      have hih := ih (i + 1) st' (runHooksSt mkEv hs (i + 1) st').1 stF (by rw [← hrest])
      rw [← htr, hih]
      simp only [List.length_cons, List.range_succ_eq_map, List.map_cons, List.map_map]
      congr 1
      refine List.map_congr_left ?_
      intro a ha
      simp only [Function.comp_apply]
      congr 1
      omega

theorem runAfterHooks_ok_trace {ε : Type}
    (hooks : List (List Token → BlockSt → Except ε (List Token × BlockSt))) :
    ∀ (i : Nat) (res : List Token) (st : BlockSt) (tr : List Event) (stF : BlockSt)
      (out : List Token),
      runAfterHooks hooks i res st = (tr, stF, .ok out) →
      tr = (List.range hooks.length).map (fun j => Event.afterRenderHook (i + j)) := by
  induction hooks with
  | nil =>
    intro i res st tr stF out h
    simp [runAfterHooks] at h
    simp [h.1.symm]
  | cons hk hs ih =>
    intro i res st tr stF out h
    cases hh : hk res st with
    | error e => simp [runAfterHooks, hh] at h
    | ok r =>
      simp [runAfterHooks, hh] at h
      obtain ⟨htr, hrest⟩ := h
      have hih := ih (i + 1) r.1 r.2 (runAfterHooks hs (i + 1) r.1 r.2).1 stF out
        (by rw [← hrest])
      rw [← htr, hih]
      simp only [List.length_cons, List.range_succ_eq_map, List.map_cons, List.map_map]
      congr 1
      refine List.map_congr_left ?_
      intro a ha
      simp only [Function.comp_apply]
      congr 1
      omega


theorem runHooksSt_append_error {ε : Type} (mkEv : Nat → Event)
    (hs : List (BlockSt → Except ε BlockSt)) :
    ∀ (h : BlockSt → Except ε BlockSt) (hs' : List (BlockSt → Except ε BlockSt))
      (i : Nat) (st : BlockSt) (tr : List Event) (stA : BlockSt) (e : ε),
      runHooksSt mkEv hs i st = (tr, stA, .ok ()) → h stA = .error e →
      runHooksSt mkEv (hs ++ h :: hs') i st =
        (tr ++ [mkEv (i + hs.length)], stA, .error e) := by
  induction hs with
  | nil =>
    intro h hs' i st tr stA e h1 h2
    simp [runHooksSt] at h1
    obtain ⟨h1a, h1b⟩ := h1
    subst h1a
    subst h1b
    simp [runHooksSt, h2]
  | cons hk hs ih =>
    intro h hs' i st tr stA e h1 h2
    cases hh : hk st with
    | error e2 => simp [runHooksSt, hh] at h1
    | ok st' =>
      simp [runHooksSt, hh] at h1
      obtain ⟨htr, hrest⟩ := h1
      have hpre : runHooksSt mkEv hs (i + 1) st' =
          ((runHooksSt mkEv hs (i + 1) st').1, stA, .ok ()) := by rw [← hrest]
      have hih := ih h hs' (i + 1) st' (runHooksSt mkEv hs (i + 1) st').1 stA e hpre h2
      have harith : i + 1 + hs.length = i + (hs.length + 1) := by omega
      rw [harith] at hih
      simp [runHooksSt, hh, hih, ← htr]

theorem runAfterHooks_append_error {ε : Type}
    (hs : List (List Token → BlockSt → Except ε (List Token × BlockSt))) :
    ∀ (h : List Token → BlockSt → Except ε (List Token × BlockSt))
      (hs' : List (List Token → BlockSt → Except ε (List Token × BlockSt)))
      (i : Nat) (res : List Token) (st : BlockSt) (tr : List Event) (stA : BlockSt)
      (resA : List Token) (e : ε),
      runAfterHooks hs i res st = (tr, stA, .ok resA) → h resA stA = .error e →
      runAfterHooks (hs ++ h :: hs') i res st =
        (tr ++ [Event.afterRenderHook (i + hs.length)], stA, .error e) := by
  induction hs with
  | nil =>
    intro h hs' i res st tr stA resA e h1 h2
    simp [runAfterHooks] at h1
    obtain ⟨h1a, h1b, h1c⟩ := h1
    subst h1a
    subst h1b
    subst h1c
    simp [runAfterHooks, h2]
  | cons hk hs ih =>
    intro h hs' i res st tr stA resA e h1 h2
    cases hh : hk res st with
    | error e2 => simp [runAfterHooks, hh] at h1
    | ok r =>
      simp [runAfterHooks, hh] at h1
      obtain ⟨htr, hrest⟩ := h1
      have hpre : runAfterHooks hs (i + 1) r.1 r.2 =
          ((runAfterHooks hs (i + 1) r.1 r.2).1, stA, .ok resA) := by rw [← hrest]
      have hih := ih h hs' (i + 1) r.1 r.2 (runAfterHooks hs (i + 1) r.1 r.2).1 stA resA e
        hpre h2
      have harith : i + 1 + hs.length = i + (hs.length + 1) := by omega
      rw [harith] at hih
      simp [runAfterHooks, hh, hih, ← htr]

theorem specFold_error {ε : Type}
    (hooks : List (List Token → BlockSt → Except ε (List Token × BlockSt))) (e : ε) :
    hooks.foldl (fun acc h => acc.bind fun p => h p.1 p.2)
      (Except.error e : Except ε (List Token × BlockSt)) = .error e := by
  induction hooks with
  | nil => rfl
  | cons hk hs ih => simpa [Except.bind] using ih

theorem runAfterHooks_eq_fold {ε : Type}
    (hooks : List (List Token → BlockSt → Except ε (List Token × BlockSt))) :
    ∀ (i : Nat) (res : List Token) (st : BlockSt),
      (runAfterHooks hooks i res st).2.2 =
        (specFoldAfterHooks hooks res st).map Prod.fst := by
  induction hooks with
  | nil => intro i res st; simp [runAfterHooks, specFoldAfterHooks, Except.map]
  | cons hk hs ih =>
    intro i res st
    cases hh : hk res st with
    | error e =>
      have h1 : specFoldAfterHooks (hk :: hs) res st = .error e := by
        simp only [specFoldAfterHooks, List.foldl_cons]
        rw [show (Except.ok (res, st)).bind (fun p => hk p.1 p.2) = Except.error e from by
          simp [Except.bind, hh]]
        exact specFold_error hs e
      simp [runAfterHooks, hh, h1, Except.map]
    | ok r =>
      simp [runAfterHooks, hh, specFoldAfterHooks, Except.bind]
      have := ih (i + 1) r.1 r.2
      simpa [specFoldAfterHooks] using this


theorem parse_ok_elim {ε : Type} (md : Markdown ε) (s : List Char)
    (st? : Option BlockSt) (tr : List Event) (stF : BlockSt) (res : List Token)
    (h : parse md s st? = (tr, stF, .ok res)) :
    ∃ tr1 st2 st3 tr2 st4 res0 st5 tr3,
      runHooksSt Event.beforeParseHook md.beforeParseHooks 0 (initState md s st?) =
        (tr1, st2, .ok ()) ∧
      md.blockParse st2 = .ok st3 ∧
      runHooksSt Event.beforeRenderHook md.beforeRenderHooks 0 st3 = (tr2, st4, .ok ()) ∧
      renderState md st4 = .ok (res0, st5) ∧
      runAfterHooks md.afterRenderHooks 0 res0 st5 = (tr3, stF, .ok res) ∧
      tr = [Event.processed] ++ tr1 ++ [Event.blockParsed] ++ tr2 ++ [Event.rendered] ++ tr3 := by
  unfold parse at h
  split at h
  · simp at h
  · rename_i tr1 st2 u heq1
    split at h
    · simp at h
    · rename_i st3 heq2
      split at h
      · simp at h
      · rename_i tr2 st4 u2 heq3
        split at h
        · simp at h
        · rename_i rres heq4
          split at h
          rename_i tr3 stA out heq5
          simp at h
          obtain ⟨htr, hst, hout⟩ := h
          subst hst
          subst hout
          refine ⟨tr1, st2, st3, tr2, st4, rres.1, rres.2, tr3, ?_, heq2, ?_, ?_, ?_, ?_⟩
          · cases u; exact heq1
          · cases u2; exact heq3
          · rw [heq4]
          · rw [heq5]
          · rw [← htr]; simp


/-- Claim C2 (amended): in every successful `parse` invocation the pipeline
events occur in exactly this order: the normalized source is loaded into the
state, then every registered pre-parse hook runs in FIFO registration order,
then the block engine's `parse` populates `state.tokens`, then the pre-render
hooks in FIFO order, then rendering, then the post-render hooks in FIFO order.
In particular the pre-parse hooks run after the source is loaded but before —
not after — the block engine populates `state.tokens`. -/
theorem parse_trace_order {ε : Type} (md : Markdown ε) (s : List Char)
    (st? : Option BlockSt) (tr : List Event) (stF : BlockSt) (res : List Token)
    (h : parse md s st? = (tr, stF, .ok res)) :
    tr = [Event.processed]
      ++ (List.range md.beforeParseHooks.length).map Event.beforeParseHook
      ++ [Event.blockParsed]
      ++ (List.range md.beforeRenderHooks.length).map Event.beforeRenderHook
      ++ [Event.rendered]
      ++ (List.range md.afterRenderHooks.length).map Event.afterRenderHook := by
  obtain ⟨tr1, st2, st3, tr2, st4, res0, st5, tr3, e1, e2, e3, e4, e5, e6⟩ :=
    parse_ok_elim md s st? tr stF res h
  have t1 := runHooksSt_ok_trace Event.beforeParseHook md.beforeParseHooks 0
    (initState md s st?) tr1 st2 e1
  have t2 := runHooksSt_ok_trace Event.beforeRenderHook md.beforeRenderHooks 0 st3 tr2 st4 e3
  have t3 := runAfterHooks_ok_trace md.afterRenderHooks 0 res0 st5 tr3 stF res e5
  subst e6
  simp [t1, t2, t3]

/-- Claim C2 counterexample: a pre-parse hook that records whether
`state.tokens` is empty observes an empty token list ("seen" maps to "empty"
in the final environment), even though the block engine later populates one
token (the final state holds it, resolved).  The trace confirms the hook event
precedes the block-parse event, refuting "hooks are invoked after the Block
Engine has populated `state.tokens`". -/
theorem preParse_hook_sees_unpopulated_tokens :
    parse mdHookOrder ['h', 'i'] none =
      ([Event.processed, Event.beforeParseHook 0, Event.blockParsed, Event.rendered],
       ⟨['h', 'i', '\n'], [Token.mk "paragraph" (some []) none []], [("seen", "empty")]⟩,
       .ok [Token.mk "paragraph" (some []) none []]) := by
  have hn : normalize ['h', 'i'] = ['h', 'i', '\n'] := by decide
  simp [parse, initState, process, hn, mdHookOrder, hookSeen, tokHi, stEmpty,
        runHooksSt, runAfterHooks, renderState, iterRender, Except.bind, Except.map]

theorem parse_trace_order_witness :
    [Event.processed, Event.beforeParseHook 0, Event.blockParsed, Event.rendered] =
      [Event.processed]
        ++ (List.range mdHookOrder.beforeParseHooks.length).map Event.beforeParseHook
        ++ [Event.blockParsed]
        ++ (List.range mdHookOrder.beforeRenderHooks.length).map Event.beforeRenderHook
        ++ [Event.rendered]
        ++ (List.range mdHookOrder.afterRenderHooks.length).map Event.afterRenderHook :=
  parse_trace_order mdHookOrder ['h', 'i'] none _
    ⟨['h', 'i', '\n'], [Token.mk "paragraph" (some []) none []], [("seen", "empty")]⟩
    [Token.mk "paragraph" (some []) none []]
    (by
      have hn : normalize ['h', 'i'] = ['h', 'i', '\n'] := by decide
      simp [parse, initState, process, hn, mdHookOrder, hookSeen, tokHi, stEmpty,
            runHooksSt, runAfterHooks, renderState, iterRender, Except.bind, Except.map])

theorem parse_normalize_congr {ε : Type} (md : Markdown ε) (s1 s2 : List Char)
    (st? : Option BlockSt) (h : normalize s1 = normalize s2) :
    parse md s1 st? = parse md s2 st? := by
  unfold parse initState
  rw [h]

/-- Claim C8: invoking the orchestrator as a callable on the empty string or
on `None` produces the same result as parsing a single newline directly, and
only the rendered result is returned — the state component is dropped. -/
theorem call_empty_none_eq_newline {ε : Type} (md : Markdown ε) :
    callFn md (some []) = (parse md ['\n'] none).2.2 ∧
    callFn md none = (parse md ['\n'] none).2.2 := by
  constructor
  · show (parse md [] none).2.2 = (parse md ['\n'] none).2.2
    rw [parse_normalize_congr md [] ['\n'] none (by decide)]
  · rfl


/-- Claim C5: post-render hooks are applied as a left-to-right fold in
registration order.  First: the source loop `runAfterHooks` computes exactly
the spec's fold `specFoldAfterHooks`, in which the first hook receives the
incoming result, each subsequent hook receives the previous hook's return
value, and the final hook's return value is the outcome.  Second: `parse`
feeds the renderer's result into this fold and returns the fold's outcome as
its result. -/
theorem afterRender_fold {ε : Type} :
    (∀ (hooks : List (List Token → BlockSt → Except ε (List Token × BlockSt)))
       (i : Nat) (res : List Token) (st : BlockSt),
       (runAfterHooks hooks i res st).2.2 =
         (specFoldAfterHooks hooks res st).map Prod.fst) ∧
    (∀ (md : Markdown ε) (s : List Char) (st? : Option BlockSt) (tr : List Event)
       (stF : BlockSt) (res0 : List Token),
       parse { md with afterRenderHooks := [] } s st? = (tr, stF, .ok res0) →
       (parse md s st?).2.2 =
         (specFoldAfterHooks md.afterRenderHooks res0 stF).map Prod.fst) := by
  constructor
  · exact fun hooks i res st => runAfterHooks_eq_fold hooks i res st
  · intro md s st? tr stF res0 h
    obtain ⟨tr1, st2, st3, tr2, st4, res0', st5, tr3, e1, e2, e3, e4, e5, e6⟩ :=
      parse_ok_elim { md with afterRenderHooks := [] } s st? tr stF res0 h
    dsimp only at e1 e2 e3 e4 e5
    simp only [initState] at e1
    simp [runAfterHooks] at e5
    obtain ⟨e5a, e5b, e5c⟩ := e5
    subst e5b
    subst e5c
    unfold parse initState
    rw [e1]
    dsimp only
    rw [e2]
    dsimp only
    rw [e3]
    dsimp only
    have e4' : renderState md st4 = Except.ok (res0', st5) := e4
    rw [e4']
    dsimp only
    have := runAfterHooks_eq_fold md.afterRenderHooks 0 res0' st5
    rcases hx : runAfterHooks md.afterRenderHooks 0 res0' st5 with ⟨ta, sa, oa⟩
    rw [hx] at this
    exact this


/-- Claim C9: any exception raised by a pre-parse hook, the block engine, a
pre-render hook, the inline engine, the renderer, or a post-render hook
propagates to the caller unmodified, and a failing hook aborts the pipeline
immediately: the trace ends at the failing hook's event, so later hooks of the
same stage and all subsequent stages never run.  The seven conjuncts cover, in
pipeline order: a pre-parse hook raising, the block engine raising, a
pre-render hook raising, the inline engine raising inside `render_state`, the
renderer raising inside `render_state`, a `render_state` failure aborting
`parse`, and a post-render hook raising. -/
theorem parse_error_propagation {ε : Type} :
    (∀ (md : Markdown ε) (s : List Char) (st? : Option BlockSt)
       (hs : List (BlockSt → Except ε BlockSt)) (h : BlockSt → Except ε BlockSt)
       (hs' : List (BlockSt → Except ε BlockSt)) (tr : List Event) (stA : BlockSt) (e : ε),
       md.beforeParseHooks = hs ++ h :: hs' →
       runHooksSt Event.beforeParseHook hs 0 (initState md s st?) = (tr, stA, .ok ()) →
       h stA = .error e →
       parse md s st? =
         ([Event.processed] ++ tr ++ [Event.beforeParseHook hs.length], stA, .error e)) ∧
    (∀ (md : Markdown ε) (s : List Char) (st? : Option BlockSt) (tr1 : List Event)
       (st2 : BlockSt) (e : ε),
       runHooksSt Event.beforeParseHook md.beforeParseHooks 0 (initState md s st?) =
         (tr1, st2, .ok ()) →
       md.blockParse st2 = .error e →
       parse md s st? =
         ([Event.processed] ++ tr1 ++ [Event.blockParsed], st2, .error e)) ∧
    (∀ (md : Markdown ε) (s : List Char) (st? : Option BlockSt) (tr1 : List Event)
       (st2 st3 : BlockSt) (hs : List (BlockSt → Except ε BlockSt))
       (h : BlockSt → Except ε BlockSt) (hs' : List (BlockSt → Except ε BlockSt))
       (tr2 : List Event) (stA : BlockSt) (e : ε),
       runHooksSt Event.beforeParseHook md.beforeParseHooks 0 (initState md s st?) =
         (tr1, st2, .ok ()) →
       md.blockParse st2 = .ok st3 →
       md.beforeRenderHooks = hs ++ h :: hs' →
       runHooksSt Event.beforeRenderHook hs 0 st3 = (tr2, stA, .ok ()) →
       h stA = .error e →
       parse md s st? =
         ([Event.processed] ++ tr1 ++ [Event.blockParsed] ++ tr2
            ++ [Event.beforeRenderHook hs.length], stA, .error e)) ∧
    (∀ (md : Markdown ε) (st : BlockSt) (e : ε),
       iterRender md.inline st.env st.tokens = .error e → renderState md st = .error e) ∧
    (∀ (md : Markdown ε) (st : BlockSt) (r : List Token × List String)
       (rd : List Token → BlockSt → Except ε (List Token)) (e : ε),
       iterRender md.inline st.env st.tokens = .ok r → md.renderer = some rd →
       rd r.1 { st with tokens := r.1 } = .error e → renderState md st = .error e) ∧
    (∀ (md : Markdown ε) (s : List Char) (st? : Option BlockSt) (tr1 : List Event)
       (st2 st3 : BlockSt) (tr2 : List Event) (st4 : BlockSt) (e : ε),
       runHooksSt Event.beforeParseHook md.beforeParseHooks 0 (initState md s st?) =
         (tr1, st2, .ok ()) →
       md.blockParse st2 = .ok st3 →
       runHooksSt Event.beforeRenderHook md.beforeRenderHooks 0 st3 = (tr2, st4, .ok ()) →
       renderState md st4 = .error e →
       parse md s st? =
         ([Event.processed] ++ tr1 ++ [Event.blockParsed] ++ tr2 ++ [Event.rendered],
          st4, .error e)) ∧
    (∀ (md : Markdown ε) (s : List Char) (st? : Option BlockSt) (tr1 : List Event)
       (st2 st3 : BlockSt) (tr2 : List Event) (st4 : BlockSt) (res0 : List Token)
       (st5 : BlockSt)
       (hs : List (List Token → BlockSt → Except ε (List Token × BlockSt)))
       (h : List Token → BlockSt → Except ε (List Token × BlockSt))
       (hs' : List (List Token → BlockSt → Except ε (List Token × BlockSt)))
       (tr3 : List Event) (stA : BlockSt) (resA : List Token) (e : ε),
       runHooksSt Event.beforeParseHook md.beforeParseHooks 0 (initState md s st?) =
         (tr1, st2, .ok ()) →
       md.blockParse st2 = .ok st3 →
       runHooksSt Event.beforeRenderHook md.beforeRenderHooks 0 st3 = (tr2, st4, .ok ()) →
       renderState md st4 = .ok (res0, st5) →
       md.afterRenderHooks = hs ++ h :: hs' →
       runAfterHooks hs 0 res0 st5 = (tr3, stA, .ok resA) →
       h resA stA = .error e →
       parse md s st? =
         ([Event.processed] ++ tr1 ++ [Event.blockParsed] ++ tr2 ++ [Event.rendered] ++ tr3
            ++ [Event.afterRenderHook hs.length], stA, .error e)) := by
  refine ⟨?_, ?_, ?_, ?_, ?_, ?_, ?_⟩
  · intro md s st? hs h hs' tr stA e hsplit h1 h2
    have hfull := runHooksSt_append_error Event.beforeParseHook hs h hs' 0
      (initState md s st?) tr stA e h1 h2
    unfold parse
    rw [hsplit, hfull]
    simp
  · intro md s st? tr1 st2 e h1 h2
    unfold parse
    rw [h1]
    dsimp only
    rw [h2]
  · intro md s st? tr1 st2 st3 hs h hs' tr2 stA e h1 h2 hsplit h3 h4
    have hfull := runHooksSt_append_error Event.beforeRenderHook hs h hs' 0 st3 tr2 stA e h3 h4
    unfold parse
    rw [h1]
    dsimp only
    rw [h2]
    dsimp only
    rw [hsplit, hfull]
    simp
  · intro md st e h1
    unfold renderState
    rw [h1]
  · intro md st r rd e h1 h2 h3
    unfold renderState
    rw [h1]
    dsimp only
    rw [h2]
    dsimp only
    rw [h3]
    rfl
  · intro md s st? tr1 st2 st3 tr2 st4 e h1 h2 h3 h4
    unfold parse
    rw [h1]
    dsimp only
    rw [h2]
    dsimp only
    rw [h3]
    dsimp only
    rw [h4]
  · intro md s st? tr1 st2 st3 tr2 st4 res0 st5 hs h hs' tr3 stA resA e h1 h2 h3 h4 hsplit h5 h6
    have hfull := runAfterHooks_append_error hs h hs' 0 res0 st5 tr3 stA resA e h5 h6
    unfold parse
    rw [h1]
    dsimp only
    rw [h2]
    dsimp only
    rw [h3]
    dsimp only
    rw [h4]
    dsimp only
    rw [hsplit, hfull]
    simp


theorem iterRender_order_postorder_witness :
    iterRender (fun _ _ => (.ok [] : Except Unit (List Token))) []
        ([Token.mk "blank" none none []] ++ [tokHi]) =
      .ok ([Token.mk "blank" none none []] ++ [Token.mk "paragraph" (some []) none []],
           [] ++ [strip "hi"]) ∧
    iterRender (fun _ _ => (.ok [] : Except Unit (List Token))) []
        [Token.mk "quote" (some [tokHi]) none []] =
      .ok ([Token.mk "quote" (some [Token.mk "paragraph" (some []) none []]) none []],
           [strip "hi"] ++ []) :=
  ⟨iterRender_order_postorder.1 (fun _ _ => .ok []) [] [Token.mk "blank" none none []]
      [tokHi] [Token.mk "blank" none none []] [] [Token.mk "paragraph" (some []) none []]
      [strip "hi"] (by simp [iterRender, Except.map])
      (by simp [iterRender, tokHi, Except.bind, Except.map]),
   iterRender_order_postorder.2 (fun _ _ => .ok []) [] "quote" [tokHi] none [] []
      [Token.mk "paragraph" (some []) none []] [strip "hi"] [] []
      (by simp [iterRender, tokHi, Except.bind, Except.map]) (by simp [iterRender])⟩

theorem iterRender_idempotent_on_resolved_witness :
    iterRender (fun _ _ => (.ok [] : Except Unit (List Token))) [] resolvedTree =
      .ok (resolvedTree, []) :=
  iterRender_idempotent_on_resolved (fun _ _ => .ok []) [] resolvedTree
    (by simp [resolvedTree, fullyResolvedList])

/-- Claim C4 counterexample: an input already ending in two newlines is left
unchanged by normalization, so the normalized text ends with two trailing
newline characters, refuting "ends with exactly one trailing newline". -/
theorem normalize_two_trailing_newlines :
    normalize ['a', '\n', '\n'] = ['a', '\n', '\n'] ∧
    ['\n', '\n'].isSuffixOf (normalize ['a', '\n', '\n']) = true := by
  constructor <;> decide

theorem normalize_no_cr_trailing_newline_witness :
    '\x0d' ∉ normalize ['a', '\x0d', 'b'] ∧
    (normalize ['a', '\x0d', 'b']).getLast? = some '\n' ∧
    normalize ['a', '\n'] = crNormalize ['a', '\n'] :=
  ⟨normalize_no_cr_trailing_newline.1 ['a', '\x0d', 'b'],
   normalize_no_cr_trailing_newline.2.1 ['a', '\x0d', 'b'],
   normalize_no_cr_trailing_newline.2.2 ['a', '\n'] (by decide)⟩

theorem afterRender_fold_witness :
    (parse mdFold [] none).2.2 =
      (specFoldAfterHooks mdFold.afterRenderHooks [] ⟨['\n'], [], []⟩).map Prod.fst :=
  afterRender_fold.2 mdFold [] none
    [Event.processed, Event.blockParsed, Event.rendered] ⟨['\n'], [], []⟩ []
    (by
      have hn : normalize [] = ['\n'] := by decide
      simp [parse, initState, process, hn, mdFold, stEmpty, runHooksSt, runAfterHooks,
            renderState, iterRender, Except.bind, Except.map])

theorem parse_error_propagation_witness :
    parse mdPreHookFail ['x'] none =
      ([Event.processed, Event.beforeParseHook 0, Event.beforeParseHook 1], stX,
       .error "hook boom") ∧
    parse mdBlockFail ['x'] none =
      ([Event.processed, Event.blockParsed], stX, .error "block boom") ∧
    parse mdPreRenderHookFail ['x'] none =
      ([Event.processed, Event.blockParsed, Event.beforeRenderHook 0,
        Event.beforeRenderHook 1], stX, .error "hook boom") ∧
    renderState mdInlineFail stTok = .error "inline boom" ∧
    renderState mdRenderFail stEmpty = .error "render boom" ∧
    parse mdInlineFailBlock ['x'] none =
      ([Event.processed, Event.blockParsed, Event.rendered], stXTok,
       .error "inline boom") ∧
    parse mdPostHookFail ['x'] none =
      ([Event.processed, Event.blockParsed, Event.rendered, Event.afterRenderHook 0,
        Event.afterRenderHook 1], stX, .error "post boom") :=
  ⟨parse_error_propagation.1 mdPreHookFail ['x'] none [okHook] failHook [okHook]
      [Event.beforeParseHook 0] stX "hook boom" rfl rfl rfl,
   parse_error_propagation.2.1 mdBlockFail ['x'] none [] stX "block boom" rfl rfl,
   parse_error_propagation.2.2.1 mdPreRenderHookFail ['x'] none [] stX stX [okHook]
      failHook [] [Event.beforeRenderHook 0] stX "hook boom" rfl rfl rfl rfl rfl,
   parse_error_propagation.2.2.2.1 mdInlineFail stTok "inline boom"
      (by simp [iterRender, mdInlineFail, mdBase, stTok, tokHi, Except.bind]),
   parse_error_propagation.2.2.2.2.1 mdRenderFail stEmpty ([], []) failRenderer
      "render boom" (by simp [iterRender, stEmpty]) rfl rfl,
   parse_error_propagation.2.2.2.2.2.1 mdInlineFailBlock ['x'] none [] stX stXTok []
      stXTok "inline boom" rfl rfl rfl
      (by simp [renderState, iterRender, mdInlineFailBlock, mdBase, stXTok, tokHi,
                Except.bind]),
   parse_error_propagation.2.2.2.2.2.2 mdPostHookFail ['x'] none [] stX stX [] stX []
      stX [okAfter] failAfter [okAfter] [Event.afterRenderHook 0] stX [] "post boom"
      rfl rfl rfl
      (by simp [renderState, iterRender, mdPostHookFail, mdBase, stX, Except.map])
      rfl rfl rfl⟩

/-- Claim C10: `read` is not atomic on failure — it records the file path into
`state.env` under `__file__` before attempting to open the file, so whenever
the open raises or the bytes fail to decode, the error reaches the caller with
the caller-visible state's environment already mapping `__file__` to that
path. -/
theorem read_env_file_set_before_open {ε : Type} (md : Markdown ε)
    (fsRead : String → Except ε (List Nat))
    (dec : String → List Nat → Except ε (List Char)) (fp enc : String)
    (st? : Option BlockSt) :
    (∀ e, fsRead fp = .error e →
       (read md fsRead dec fp enc st?).2 = .error e ∧
       envGet (read md fsRead dec fp enc st?).1.env "__file__" = some fp) ∧
    (∀ bs e, fsRead fp = .ok bs → dec enc bs = .error e →
       (read md fsRead dec fp enc st?).2 = .error e ∧
       envGet (read md fsRead dec fp enc st?).1.env "__file__" = some fp) := by
  constructor
  · intro e he
    simp only [read]
    rw [he]
    constructor
    · rfl
    · simp [envGet]
  · intro bs e hbs hdec
    simp only [read]
    rw [hbs]
    dsimp only
    rw [hdec]
    constructor
    · rfl
    · simp [envGet]

theorem read_env_file_set_before_open_witness :
    ((read mdBase (fun _ => .error "io boom") (fun _ _ => .ok []) "doc.md" "utf-8"
        none).2 = .error "io boom" ∧
      envGet (read mdBase (fun _ => .error "io boom") (fun _ _ => .ok []) "doc.md"
        "utf-8" none).1.env "__file__" = some "doc.md") ∧
    ((read mdBase (fun _ => .ok [0]) (fun _ _ => .error "decode boom") "doc.md"
        "utf-8" none).2 = .error "decode boom" ∧
      envGet (read mdBase (fun _ => .ok [0]) (fun _ _ => .error "decode boom") "doc.md"
        "utf-8" none).1.env "__file__" = some "doc.md") :=
  ⟨(read_env_file_set_before_open mdBase (fun _ => .error "io boom")
      (fun _ _ => .ok []) "doc.md" "utf-8" none).1 "io boom" rfl,
   (read_env_file_set_before_open mdBase (fun _ => .ok [0])
      (fun _ _ => .error "decode boom") "doc.md" "utf-8" none).2 [0] "decode boom"
      rfl rfl⟩

end Mistune
